import Mathlib

/-!
Verification of `skills/error-handling-patterns/scripts/error-analyzer.py`.

The program reads stdin, keeps the non-blank lines, strips the trailing
newline from each, counts duplicates with `collections.Counter`, and prints
`f"{n}\t{line}"` for each distinct line in `most_common()` order
(descending count, ties in insertion order, since Python dicts preserve
insertion order and `sorted` is stable).

Text is modelled as `List Char`; the input stream is the decoded text the
Python runtime hands to `sys.stdin` (universal newlines already translated,
so the line terminator is `'\n'`).
-/

namespace ErrorAnalyzer

/-- The characters for which Python's `str.isspace` returns `True`
(White_Space plus the bidirectional classes B and S used by `str.strip`):
U+0009..U+000D, U+001C..U+001F, space, U+0085, U+00A0, U+1680,
U+2000..U+200A, U+2028, U+2029, U+202F, U+205F, U+3000. -/
def pySpaceChars : List Char :=
  ['\t', '\n', '\x0b', '\x0c', '\x0d', '\x1c', '\x1d', '\x1e', '\x1f', ' ',
   '\x85', '\xa0', ' ', ' ', ' ', ' ', ' ',
   ' ', ' ', ' ', ' ', ' ', ' ', ' ',
   ' ', ' ', ' ', ' ', '　']

/-- Python whitespace test on a single character (`str.isspace` on it). -/
def isPySpace (c : Char) : Bool := pySpaceChars.contains c

/-- `'\n'` test, the character class removed by `line.rstrip("\n")`. -/
def isNl (c : Char) : Bool := c == '\n'

/-- Python `s.strip()`: remove leading and trailing whitespace. -/
def strip (s : List Char) : List Char :=
  (s.reverse.dropWhile isPySpace).reverse.dropWhile isPySpace

/-- Python `s.rstrip("\n")`: remove every trailing `'\n'`.  (Lines produced
by iterating `sys.stdin` carry at most one, at the very end.) -/
def rstripNewline (s : List Char) : List Char :=
  (s.reverse.dropWhile isNl).reverse

/-- Helper for `splitLines`: `acc` holds the current (reversed) partial
line; a `'\n'` closes the line and is kept on it, as Python's line
iteration does. -/
def splitLinesAux : List Char → List Char → List (List Char)
  | [], acc => if acc.isEmpty then [] else [acc.reverse]
  | c :: rest, acc =>
    if c = '\n' then (acc.reverse ++ ['\n']) :: splitLinesAux rest []
    else splitLinesAux rest (c :: acc)

/-- The lines yielded by `for line in sys.stdin`: each keeps its trailing
`'\n'`; a final chunk with no terminator is still yielded; empty input
yields nothing. -/
def splitLines (s : List Char) : List (List Char) := splitLinesAux s []

/-- Line 16: `[line.rstrip("\n") for line in sys.stdin if line.strip()]`.
The filter tests truthiness of `line.strip()`, i.e. non-emptiness. -/
def processedLines (input : List Char) : List (List Char) :=
  ((splitLines input).filter (fun l => !(strip l).isEmpty)).map rstripNewline

/-- One entry of the counter: the line's text and its count, in the order
Python's `counts.most_common()` yields them (`line, n`). -/
abbrev Entry := List Char × Nat

/-- One `Counter` update: increment the entry holding `l`, or append a new
entry with count 1 — Python dicts keep insertion order, so a new key goes
at the end. -/
def tallyInsert (t : List Entry) (l : List Char) : List Entry :=
  match t with
  | [] => [(l, 1)]
  | (k, n) :: rest =>
    if k = l then (k, n + 1) :: rest else (k, n) :: tallyInsert rest l

/-- Line 17: `counts = Counter(lines)`, as the insertion-ordered
association list a Python dict is. -/
def tally (ls : List (List Char)) : List Entry := ls.foldl tallyInsert []

/-- Insert an entry into a count-descending list, after every entry with a
strictly greater count and before the rest: the placement a stable
descending sort gives the element earliest in the input. -/
def insertDesc (x : Entry) : List Entry → List Entry
  | [] => [x]
  | y :: ys => if x.2 < y.2 then y :: insertDesc x ys else x :: y :: ys

/-- Stable sort by descending count, the ordering contract of
`Counter.most_common()` (`sorted(items, key=itemgetter(1), reverse=True)`,
and Python's `sorted` is stable). -/
def sortDesc : List Entry → List Entry
  | [] => []
  | x :: xs => insertDesc x (sortDesc xs)

/-- The sequence of report entries, line 18: `counts.most_common()`. -/
def report (input : List Char) : List Entry :=
  sortDesc (tally (processedLines input))

/-- A decimal digit character. -/
def digitChar : Nat → Char
  | 0 => '0' | 1 => '1' | 2 => '2' | 3 => '3' | 4 => '4'
  | 5 => '5' | 6 => '6' | 7 => '7' | 8 => '8' | _ => '9'

/-- Decimal rendering of a count, as `f"{n}"` prints it. -/
def natToDigits (n : Nat) : List Char :=
  if h : n < 10 then [digitChar n]
  else natToDigits (n / 10) ++ [digitChar (n % 10)]
decreasing_by exact Nat.div_lt_self (Nat.lt_of_lt_of_le (by decide) (Nat.le_of_not_lt h)) (by decide)

/-- Line 19: `print(f"{n}\t{line}")` — count, one tab, the text, and the
newline `print` appends. -/
def renderEntry (e : Entry) : List Char :=
  natToDigits e.2 ++ '\t' :: (e.1 ++ ['\n'])

/-- Everything the loop at lines 18-19 writes to stdout. -/
def render (input : List Char) : List Char :=
  ((report input).map renderEntry).foldr (fun a b => a ++ b) []

/-- The whole process, lines 15-24.  `raise SystemExit(main())` exits with
status 0 on normal return; if `sys.stdin` cannot be read the exception
escapes `main` before anything is printed and the interpreter exits with
status 1.  `none` models an unreadable input stream; the result is the
text written to stdout (if any) and the exit status. -/
def run : Option (List Char) → Option (List Char) × Nat
  | none => (none, 1)
  | some input => (some (render input), 0)

/-- Occurrences of `k` in `ls` (Python `lines.count(k)` semantics). -/
def countIn (ls : List (List Char)) (k : List Char) : Nat :=
  match ls with
  | [] => 0
  | l :: ls => (if l = k then 1 else 0) + countIn ls k

/-- The distinct elements of a list in first-occurrence order, skipping
those already in `seen`. -/
def firstOccsNotIn (seen : List (List Char)) : List (List Char) → List (List Char)
  | [] => []
  | l :: ls =>
    if l ∈ seen then firstOccsNotIn seen ls
    else l :: firstOccsNotIn (l :: seen) ls

/-- The distinct elements of a list in first-occurrence order. -/
def firstOccs (ls : List (List Char)) : List (List Char) :=
  firstOccsNotIn [] ls

/-- Index of the first occurrence of `k` in `ls` (length if absent). -/
def firstOccIdx (ls : List (List Char)) (k : List Char) : Nat :=
  match ls with
  | [] => 0
  | l :: ls => if l = k then 0 else firstOccIdx ls k + 1

/-- Keys of an association list. -/
def keys (t : List Entry) : List (List Char) := t.map Prod.fst

/-! ### Whitespace and stripping lemmas -/

theorem dropWhile_dropWhile_of_imp {p q : Char → Bool} (h : ∀ c, p c = true → q c = true) :
    ∀ l : List Char, (l.dropWhile p).dropWhile q = l.dropWhile q := by
  intro l
  induction l with
  | nil => rfl
  | cons c l ih =>
    by_cases hp : p c = true
    · rw [List.dropWhile_cons_of_pos hp, List.dropWhile_cons_of_pos (h c hp), ih]
    · rw [List.dropWhile_cons_of_neg hp]

theorem dropWhile_eq_nil_of_forall {p : Char → Bool} :
    ∀ l : List Char, (∀ c ∈ l, p c = true) → l.dropWhile p = [] := by
  intro l h
  induction l with
  | nil => rfl
  | cons c l ih =>
    rw [List.dropWhile_cons_of_pos (h c (by simp))]
    exact ih fun c hc => h c (by simp [hc])

theorem dropWhile_eq_self_of_forall {p : Char → Bool} :
    ∀ l : List Char, (∀ c ∈ l, p c = false) → l.dropWhile p = l := by
  intro l h
  cases l with
  | nil => rfl
  | cons c l => exact List.dropWhile_cons_of_neg (by simp [h c (by simp)])

theorem isNl_imp_isPySpace (c : Char) (h : isNl c = true) : isPySpace c = true := by
  have hc : c = '\n' := by
    simpa [isNl] using h
  subst hc; decide

/-- Removing the trailing newline first does not change what `strip` returns. -/
theorem strip_rstripNewline (s : List Char) : strip (rstripNewline s) = strip s := by
  unfold strip rstripNewline
  rw [List.reverse_reverse, dropWhile_dropWhile_of_imp isNl_imp_isPySpace]

theorem strip_append_nl (s : List Char) : strip (s ++ ['\n']) = strip s := by
  unfold strip
  rw [List.reverse_append]
  simp only [List.reverse_cons, List.reverse_nil, List.nil_append, List.singleton_append]
  rw [List.dropWhile_cons_of_pos (by decide : isPySpace '\n' = true)]

theorem rstripNewline_append_nl (s : List Char) :
    rstripNewline (s ++ ['\n']) = rstripNewline s := by
  unfold rstripNewline
  rw [List.reverse_append]
  simp only [List.reverse_cons, List.reverse_nil, List.nil_append, List.singleton_append]
  rw [List.dropWhile_cons_of_pos (by decide : isNl '\n' = true)]

theorem rstripNewline_eq_self {s : List Char} (h : '\n' ∉ s) : rstripNewline s = s := by
  unfold rstripNewline
  rw [dropWhile_eq_self_of_forall s.reverse
    (fun c hc => by
      have : c ≠ '\n' := fun hcn => h (hcn ▸ (List.mem_reverse.mp hc))
      simp [isNl, this]), List.reverse_reverse]

/-! ### Shape of the lines produced by `splitLines` -/

theorem splitLinesAux_shape :
    ∀ (s acc : List Char), (∀ c ∈ acc, c ≠ '\n') →
      ∀ l ∈ splitLinesAux s acc,
        ∃ body, '\n' ∉ body ∧ (l = body ++ ['\n'] ∨ l = body) := by
  intro s
  induction s with
  | nil =>
    intro acc hacc l hl
    unfold splitLinesAux at hl
    by_cases he : acc.isEmpty
    · simp [he] at hl
    · simp [he] at hl
      refine ⟨acc.reverse, ?_, Or.inr hl⟩
      intro hmem
      exact hacc '\n' (List.mem_reverse.mp hmem) rfl
  | cons c rest ih =>
    intro acc hacc l hl
    unfold splitLinesAux at hl
    by_cases hc : c = '\n'
    · rw [if_pos hc] at hl
      rcases List.mem_cons.mp hl with h | h
      · refine ⟨acc.reverse, ?_, Or.inl h⟩
        intro hmem
        exact hacc '\n' (List.mem_reverse.mp hmem) rfl
      · exact ih [] (by simp) l h
    · rw [if_neg hc] at hl
      exact ih (c :: acc) (fun d hd => by
        rcases List.mem_cons.mp hd with h | h
        · exact h ▸ hc
        · exact hacc d h) l hl

theorem splitLines_shape {s : List Char} {l : List Char} (hl : l ∈ splitLines s) :
    ∃ body, '\n' ∉ body ∧ (l = body ++ ['\n'] ∨ l = body) :=
  splitLinesAux_shape s [] (by simp) l hl

/-! ### Characterisation of the tally -/

theorem countIn_nil (k : List Char) : countIn [] k = 0 := rfl

theorem countIn_cons (l k : List Char) (ls : List (List Char)) :
    countIn (l :: ls) k = (if l = k then 1 else 0) + countIn ls k := rfl

theorem keys_cons (k : List Char) (n : Nat) (rest : List Entry) :
    keys ((k, n) :: rest) = k :: keys rest := rfl

theorem mem_keys_cons {l k : List Char} {n : Nat} {rest : List Entry} :
    l ∈ keys ((k, n) :: rest) ↔ l = k ∨ l ∈ keys rest := by
  rw [keys_cons]; exact List.mem_cons

theorem tallyInsert_of_not_mem {t : List Entry} {l : List Char} (h : l ∉ keys t) :
    tallyInsert t l = t ++ [(l, 1)] := by
  induction t with
  | nil => rfl
  | cons e rest ih =>
    obtain ⟨k, n⟩ := e
    have hk : k ≠ l := fun hkl => h (mem_keys_cons.mpr (Or.inl hkl.symm))
    show (if k = l then (k, n + 1) :: rest else (k, n) :: tallyInsert rest l) = _
    rw [if_neg hk, ih fun hmem => h (mem_keys_cons.mpr (Or.inr hmem))]
    rfl

theorem keys_tallyInsert_mem {t : List Entry} {l : List Char} (h : l ∈ keys t) :
    keys (tallyInsert t l) = keys t := by
  induction t with
  | nil => simp [keys] at h
  | cons e rest ih =>
    obtain ⟨k, n⟩ := e
    by_cases hk : k = l
    · subst hk
      show keys (if k = k then (k, n + 1) :: rest else _) = _
      rw [if_pos rfl, keys_cons, keys_cons]
    · show keys (if k = l then _ else (k, n) :: tallyInsert rest l) = _
      rw [if_neg hk, keys_cons, keys_cons]
      rcases mem_keys_cons.mp h with h' | h'
      · exact absurd h'.symm hk
      · rw [ih h']

theorem keys_tallyInsert_not_mem {t : List Entry} {l : List Char} (h : l ∉ keys t) :
    keys (tallyInsert t l) = keys t ++ [l] := by
  rw [tallyInsert_of_not_mem h]
  simp [keys]

theorem map_eq_self_of {α : Type} {f : α → α} :
    ∀ t : List α, (∀ x ∈ t, f x = x) → t.map f = t := by
  intro t h
  induction t with
  | nil => rfl
  | cons x rest ih =>
    rw [List.map_cons, h x (by simp), ih fun y hy => h y (by simp [hy])]

theorem tallyInsert_of_mem {t : List Entry} {l : List Char}
    (hnd : (keys t).Nodup) (h : l ∈ keys t) :
    tallyInsert t l = t.map (fun e => if e.1 = l then (e.1, e.2 + 1) else e) := by
  induction t with
  | nil => simp [keys] at h
  | cons e rest ih =>
    obtain ⟨k, n⟩ := e
    obtain ⟨hknotin, hndrest⟩ : k ∉ keys rest ∧ (keys rest).Nodup :=
      List.nodup_cons.mp (keys_cons k n rest ▸ hnd)
    by_cases hk : k = l
    · subst hk
      show (if k = k then (k, n + 1) :: rest else _) = _
      rw [if_pos rfl, List.map_cons]
      show _ = (if k = k then (k, n + 1) else (k, n)) :: _
      rw [if_pos rfl]
      congr 1
      refine (map_eq_self_of rest fun x hx => ?_).symm
      have hx1 : x.1 ≠ k := fun h' => hknotin (h' ▸ List.mem_map_of_mem Prod.fst hx)
      rw [if_neg hx1]
    · have hmem : l ∈ keys rest := by
        rcases mem_keys_cons.mp h with h' | h'
        · exact absurd h'.symm hk
        · exact h'
      show (if k = l then _ else (k, n) :: tallyInsert rest l) = _
      rw [if_neg hk, List.map_cons]
      show _ = (if k = l then (k, n + 1) else (k, n)) :: _
      rw [if_neg hk, ih hndrest hmem]

theorem firstOccsNotIn_congr {seen seen' : List (List Char)}
    (h : ∀ x, x ∈ seen ↔ x ∈ seen') :
    ∀ ls, firstOccsNotIn seen ls = firstOccsNotIn seen' ls := by
  intro ls
  induction ls generalizing seen seen' with
  | nil => rfl
  | cons l ls ih =>
    show (if l ∈ seen then _ else _) = (if l ∈ seen' then _ else _)
    by_cases hl : l ∈ seen
    · rw [if_pos hl, if_pos ((h l).mp hl)]
      exact ih h
    · rw [if_neg hl, if_neg (fun h' => hl ((h l).mpr h'))]
      rw [ih (fun x => by
        constructor
        · intro hx
          rcases List.mem_cons.mp hx with h' | h'
          · exact (by simp [h'] : x ∈ l :: seen')
          · exact List.mem_cons_of_mem l ((h x).mp h')
        · intro hx
          rcases List.mem_cons.mp hx with h' | h'
          · exact (by simp [h'] : x ∈ l :: seen)
          · exact List.mem_cons_of_mem l ((h x).mpr h'))]

theorem mem_firstOccsNotIn {seen : List (List Char)} {ls : List (List Char)}
    {x : List Char} (h : x ∈ firstOccsNotIn seen ls) : x ∉ seen ∧ x ∈ ls := by
  induction ls generalizing seen with
  | nil => simp [firstOccsNotIn] at h
  | cons l ls ih =>
    by_cases hl : l ∈ seen
    · rw [show firstOccsNotIn seen (l :: ls) = firstOccsNotIn seen ls from if_pos hl] at h
      obtain ⟨h1, h2⟩ := ih h
      exact ⟨h1, List.mem_cons_of_mem l h2⟩
    · rw [show firstOccsNotIn seen (l :: ls) = l :: firstOccsNotIn (l :: seen) ls from
        if_neg hl] at h
      rcases List.mem_cons.mp h with h' | h'
      · exact ⟨h' ▸ hl, h' ▸ List.mem_cons_self l ls⟩
      · obtain ⟨h1, h2⟩ := ih h'
        exact ⟨fun hx => h1 (List.mem_cons_of_mem l hx), List.mem_cons_of_mem l h2⟩

theorem mem_firstOccsNotIn_of_mem {seen ls : List (List Char)} {x : List Char}
    (hx : x ∈ ls) (hseen : x ∉ seen) : x ∈ firstOccsNotIn seen ls := by
  induction ls generalizing seen with
  | nil => simp at hx
  | cons l ls ih =>
    by_cases hl : l ∈ seen
    · rw [show firstOccsNotIn seen (l :: ls) = firstOccsNotIn seen ls from if_pos hl]
      rcases List.mem_cons.mp hx with h' | h'
      · exact absurd (h' ▸ hl) hseen
      · exact ih h' hseen
    · rw [show firstOccsNotIn seen (l :: ls) = l :: firstOccsNotIn (l :: seen) ls from
        if_neg hl]
      rcases List.mem_cons.mp hx with h' | h'
      · exact h' ▸ List.mem_cons_self l _
      · by_cases hxl : x = l
        · exact hxl ▸ List.mem_cons_self l _
        · exact List.mem_cons_of_mem l (ih h' (by
            intro hc
            rcases List.mem_cons.mp hc with h'' | h''
            · exact hxl h''
            · exact hseen h''))

/-- The tally after consuming `ls` on top of an accumulator `t` with distinct
keys: existing entries gain the occurrences in `ls`, and the lines of `ls`
not yet seen are appended in first-occurrence order with their counts. -/
theorem tally_foldl :
    ∀ (ls : List (List Char)) (t : List Entry), (keys t).Nodup →
      List.foldl tallyInsert t ls =
        t.map (fun e => (e.1, e.2 + countIn ls e.1)) ++
          (firstOccsNotIn (keys t) ls).map (fun k => (k, countIn ls k)) := by
  intro ls
  induction ls with
  | nil =>
    intro t _
    show t = t.map (fun e => (e.1, e.2 + countIn [] e.1)) ++ _
    simp [countIn, firstOccsNotIn]
  | cons l ls ih =>
    intro t hnd
    show List.foldl tallyInsert (tallyInsert t l) ls = _
    by_cases hmem : l ∈ keys t
    · have hnd' : (keys (tallyInsert t l)).Nodup := by rw [keys_tallyInsert_mem hmem]; exact hnd
      rw [ih (tallyInsert t l) hnd', keys_tallyInsert_mem hmem,
        tallyInsert_of_mem hnd hmem, List.map_map]
      rw [show firstOccsNotIn (keys t) (l :: ls) = firstOccsNotIn (keys t) ls from
        if_pos hmem]
      congr 1
      · refine List.map_congr_left fun e _ => ?_
        by_cases he : e.1 = l
        · simp only [Function.comp, if_pos he, countIn_cons, if_pos he.symm]
          exact Prod.ext rfl (by omega)
        · simp only [Function.comp, if_neg he, countIn_cons,
            if_neg (fun h' : l = e.1 => he h'.symm)]
          exact Prod.ext rfl (by omega)
      · refine List.map_congr_left fun k hk => ?_
        have hknot : k ∉ keys t := (mem_firstOccsNotIn hk).1
        have hkl : l ≠ k := fun h' => hknot (h' ▸ hmem)
        rw [countIn_cons, if_neg hkl, Nat.zero_add]
    · have hkeys : keys (tallyInsert t l) = keys t ++ [l] := keys_tallyInsert_not_mem hmem
      have hnd' : (keys (tallyInsert t l)).Nodup := by
        rw [hkeys, List.nodup_append]
        exact ⟨hnd, List.nodup_singleton l, fun x hx => by
          simp only [List.mem_singleton]
          exact fun hxl => hmem (hxl ▸ hx)⟩
      rw [ih (tallyInsert t l) hnd', hkeys, tallyInsert_of_not_mem hmem, List.map_append]
      rw [show firstOccsNotIn (keys t) (l :: ls) = l :: firstOccsNotIn (l :: keys t) ls from
        if_neg hmem]
      rw [@firstOccsNotIn_congr (keys t ++ [l]) (l :: keys t) (fun x => by
        simp [List.mem_append, or_comm]) ls]
      rw [List.map_cons]
      rw [show ((firstOccsNotIn (l :: keys t) ls).map fun k => (k, countIn ls k)) =
          ((firstOccsNotIn (l :: keys t) ls).map fun k => (k, countIn (l :: ls) k)) from
        List.map_congr_left fun k hk => by
          have hkl : l ≠ k := fun h' =>
            (mem_firstOccsNotIn hk).1 (h' ▸ List.mem_cons_self l (keys t))
          rw [countIn_cons, if_neg hkl, Nat.zero_add]]
      rw [show (t.map fun e => (e.1, e.2 + countIn ls e.1)) =
          (t.map fun e => (e.1, e.2 + countIn (l :: ls) e.1)) from
        List.map_congr_left fun e he => by
          have hel : l ≠ e.1 := fun h' =>
            hmem (h' ▸ List.mem_map_of_mem Prod.fst he)
          rw [countIn_cons, if_neg hel, Nat.zero_add]]
      simp [countIn_cons]

/-- `Counter(lines)` is exactly: the distinct lines in first-occurrence
order, each paired with its number of occurrences. -/
theorem tally_eq (ls : List (List Char)) :
    tally ls = (firstOccs ls).map (fun k => (k, countIn ls k)) := by
  have h := tally_foldl ls [] List.nodup_nil
  simpa [tally, keys, firstOccs] using h

/-! ### First-occurrence order -/

theorem firstOccIdx_cons (l k : List Char) (ls : List (List Char)) :
    firstOccIdx (l :: ls) k = if l = k then 0 else firstOccIdx ls k + 1 := rfl

theorem pairwise_firstOccsNotIn :
    ∀ (ls seen : List (List Char)),
      (firstOccsNotIn seen ls).Pairwise
        (fun k1 k2 => firstOccIdx ls k1 < firstOccIdx ls k2) := by
  intro ls
  induction ls with
  | nil => intro seen; exact List.Pairwise.nil
  | cons l ls ih =>
    intro seen
    by_cases hl : l ∈ seen
    · rw [show firstOccsNotIn seen (l :: ls) = firstOccsNotIn seen ls from if_pos hl]
      refine (ih seen).imp_of_mem fun {k1 k2} h1 h2 hlt => ?_
      have hk1 : l ≠ k1 := fun h' => (mem_firstOccsNotIn h1).1 (h' ▸ hl)
      have hk2 : l ≠ k2 := fun h' => (mem_firstOccsNotIn h2).1 (h' ▸ hl)
      rw [firstOccIdx_cons, firstOccIdx_cons, if_neg hk1, if_neg hk2]
      omega
    · rw [show firstOccsNotIn seen (l :: ls) = l :: firstOccsNotIn (l :: seen) ls from
        if_neg hl]
      refine List.Pairwise.cons ?_ ?_
      · intro k hk
        have hlk : l ≠ k := fun h' =>
          (mem_firstOccsNotIn hk).1 (h' ▸ List.mem_cons_self l seen)
        rw [firstOccIdx_cons, firstOccIdx_cons, if_pos rfl, if_neg hlk]
        omega
      · refine (ih (l :: seen)).imp_of_mem fun {k1 k2} h1 h2 hlt => ?_
        have hk1 : l ≠ k1 := fun h' =>
          (mem_firstOccsNotIn h1).1 (h' ▸ List.mem_cons_self l seen)
        have hk2 : l ≠ k2 := fun h' =>
          (mem_firstOccsNotIn h2).1 (h' ▸ List.mem_cons_self l seen)
        rw [firstOccIdx_cons, firstOccIdx_cons, if_neg hk1, if_neg hk2]
        omega

theorem pairwise_firstOccs (ls : List (List Char)) :
    (firstOccs ls).Pairwise (fun k1 k2 => firstOccIdx ls k1 < firstOccIdx ls k2) :=
  pairwise_firstOccsNotIn ls []

theorem nodup_firstOccs (ls : List (List Char)) : (firstOccs ls).Nodup :=
  (pairwise_firstOccs ls).imp fun hlt heq => by
    subst heq
    exact Nat.lt_irrefl _ hlt

/-! ### The stable descending sort behind `most_common()` -/

theorem insertDesc_perm (x : Entry) : ∀ l : List Entry, List.Perm (insertDesc x l) (x :: l) := by
  intro l
  induction l with
  | nil => exact List.Perm.refl _
  | cons y ys ih =>
    show List.Perm (if x.2 < y.2 then y :: insertDesc x ys else x :: y :: ys) _
    by_cases h : x.2 < y.2
    · rw [if_pos h]
      exact (ih.cons y).trans (List.Perm.swap x y ys)
    · rw [if_neg h]

theorem sortDesc_perm : ∀ l : List Entry, List.Perm (sortDesc l) l := by
  intro l
  induction l with
  | nil => exact List.Perm.refl _
  | cons x xs ih => exact (insertDesc_perm x (sortDesc xs)).trans (ih.cons x)

theorem insertDesc_sorted {x : Entry} {l : List Entry}
    (hl : l.Pairwise (fun a b => b.2 ≤ a.2)) :
    (insertDesc x l).Pairwise (fun a b : Entry => b.2 ≤ a.2) := by
  induction l with
  | nil => exact List.pairwise_singleton _ x
  | cons y ys ih =>
    show (if x.2 < y.2 then y :: insertDesc x ys else x :: y :: ys).Pairwise _
    obtain ⟨hy, hys⟩ := List.pairwise_cons.mp hl
    by_cases h : x.2 < y.2
    · rw [if_pos h]
      refine List.Pairwise.cons ?_ (ih hys)
      intro z hz
      rcases List.mem_cons.mp ((insertDesc_perm x ys).mem_iff.mp hz) with hz' | hz'
      · rw [hz']; exact Nat.le_of_lt h
      · exact hy z hz'
    · rw [if_neg h]
      refine List.Pairwise.cons ?_ hl
      intro z hz
      rcases List.mem_cons.mp hz with hz' | hz'
      · rw [hz']; omega
      · exact Nat.le_trans (hy z hz') (by omega)

theorem sortDesc_sorted : ∀ l : List Entry,
    (sortDesc l).Pairwise (fun a b : Entry => b.2 ≤ a.2) := by
  intro l
  induction l with
  | nil => exact List.Pairwise.nil
  | cons x xs ih => exact insertDesc_sorted ih

theorem insertDesc_stable {S : Entry → Entry → Prop} {x : Entry} {l : List Entry}
    (hl : l.Pairwise (fun a b => b.2 < a.2 ∨ S a b))
    (hx : ∀ y ∈ l, y.2 < x.2 ∨ S x y) :
    (insertDesc x l).Pairwise (fun a b => b.2 < a.2 ∨ S a b) := by
  induction l with
  | nil => exact List.pairwise_singleton _ x
  | cons y ys ih =>
    show (if x.2 < y.2 then y :: insertDesc x ys else x :: y :: ys).Pairwise _
    obtain ⟨hy, hys⟩ := List.pairwise_cons.mp hl
    by_cases h : x.2 < y.2
    · rw [if_pos h]
      refine List.Pairwise.cons ?_ (ih hys fun z hz => hx z (List.mem_cons_of_mem y hz))
      intro z hz
      rcases List.mem_cons.mp ((insertDesc_perm x ys).mem_iff.mp hz) with hz' | hz'
      · exact Or.inl (hz' ▸ h)
      · exact hy z hz'
    · rw [if_neg h]
      exact List.Pairwise.cons hx hl

theorem sortDesc_stable {S : Entry → Entry → Prop} : ∀ {l : List Entry},
    l.Pairwise (fun a b => b.2 < a.2 ∨ S a b) →
    (sortDesc l).Pairwise (fun a b => b.2 < a.2 ∨ S a b) := by
  intro l
  induction l with
  | nil => intro _; exact List.Pairwise.nil
  | cons x xs ih =>
    intro hl
    obtain ⟨hx, hxs⟩ := List.pairwise_cons.mp hl
    exact insertDesc_stable (ih hxs)
      (fun y hy => hx y ((sortDesc_perm xs).mem_iff.mp hy))

/-! ### Sum of counts -/

theorem sum_tallyInsert (t : List Entry) (l : List Char) :
    ((tallyInsert t l).map Prod.snd).sum = (t.map Prod.snd).sum + 1 := by
  induction t with
  | nil => rfl
  | cons e rest ih =>
    obtain ⟨k, n⟩ := e
    show ((if k = l then (k, n + 1) :: rest else (k, n) :: tallyInsert rest l).map
      Prod.snd).sum = _
    by_cases hk : k = l
    · rw [if_pos hk]
      simp [Nat.add_comm, Nat.add_assoc, Nat.add_left_comm]
    · rw [if_neg hk]
      simp only [List.map_cons, List.sum_cons, ih]
      omega

theorem sum_tally_foldl :
    ∀ (ls : List (List Char)) (t : List Entry),
      ((List.foldl tallyInsert t ls).map Prod.snd).sum =
        (t.map Prod.snd).sum + ls.length := by
  intro ls
  induction ls with
  | nil => intro t; rfl
  | cons l ls ih =>
    intro t
    show ((List.foldl tallyInsert (tallyInsert t l) ls).map Prod.snd).sum = _
    rw [ih, sum_tallyInsert]
    simp [Nat.add_comm, Nat.add_assoc, Nat.add_left_comm]

/-! ### What ends up in the report -/

theorem mem_processedLines {input x : List Char} (h : x ∈ processedLines input) :
    ∃ raw ∈ splitLines input, x = rstripNewline raw ∧ (strip raw).isEmpty = false := by
  unfold processedLines at h
  obtain ⟨raw, hraw, hx⟩ := List.mem_map.mp h
  obtain ⟨hmem, hkeep⟩ := List.mem_filter.mp hraw
  exact ⟨raw, hmem, hx.symm, by simpa using hkeep⟩

theorem processed_not_blank {input x : List Char} (h : x ∈ processedLines input) :
    (strip x).isEmpty = false := by
  obtain ⟨raw, _, hx, hkeep⟩ := mem_processedLines h
  rw [hx, strip_rstripNewline]
  exact hkeep

theorem processed_no_nl {input x : List Char} (h : x ∈ processedLines input) :
    '\n' ∉ x := by
  obtain ⟨raw, hraw, hx, _⟩ := mem_processedLines h
  obtain ⟨body, hbody, hshape⟩ := splitLines_shape hraw
  rcases hshape with h' | h'
  · rw [hx, h', rstripNewline_append_nl, rstripNewline_eq_self hbody]
    exact hbody
  · rw [hx, h', rstripNewline_eq_self hbody]
    exact hbody

theorem mem_report_line {input : List Char} {e : Entry} (h : e ∈ report input) :
    e.1 ∈ processedLines input ∧ e.2 = countIn (processedLines input) e.1 := by
  unfold report at h
  have h' : e ∈ tally (processedLines input) :=
    (sortDesc_perm (tally (processedLines input))).mem_iff.mp h
  rw [tally_eq] at h'
  obtain ⟨k, hk, he⟩ := List.mem_map.mp h'
  obtain ⟨_, hmem⟩ := mem_firstOccsNotIn hk
  constructor
  · rw [← he]
    exact hmem
  · rw [← he]

/-! ### Decimal digits contain no newline and no tab -/

theorem digitChar_ne_nl (d : Nat) : digitChar d ≠ '\n' := by
  unfold digitChar
  split <;> decide

theorem natToDigits_no_nl : ∀ n : Nat, '\n' ∉ natToDigits n := by
  intro n
  induction n using Nat.strong_induction_on with
  | _ n ih =>
    rw [natToDigits]
    by_cases h : n < 10
    · rw [dif_pos h]
      intro hc
      rcases List.mem_singleton.mp hc with h'
      exact digitChar_ne_nl n h'.symm
    · rw [dif_neg h]
      intro hc
      rcases List.mem_append.mp hc with h' | h'
      · exact ih (n / 10) (Nat.div_lt_self (by omega) (by decide)) h'
      · exact digitChar_ne_nl (n % 10) (List.mem_singleton.mp h').symm

/-! ### Splitting the rendered output back into lines -/

theorem splitLinesAux_chunk {R body : List Char} (hbody : ∀ c ∈ body, c ≠ '\n') :
    ∀ acc : List Char,
      splitLinesAux (body ++ '\n' :: R) acc =
        (acc.reverse ++ body ++ ['\n']) :: splitLinesAux R [] := by
  induction body with
  | nil =>
    intro acc
    show (if ('\n' : Char) = '\n' then _ else _) = _
    rw [if_pos rfl]
    simp
  | cons c body ih =>
    intro acc
    have hc : c ≠ '\n' := hbody c (by simp)
    show (if c = '\n' then _ else splitLinesAux (body ++ '\n' :: R) (c :: acc)) = _
    rw [if_neg hc, ih (fun d hd => hbody d (by simp [hd])) (c :: acc)]
    simp

theorem splitLines_concat :
    ∀ chunks : List (List Char),
      (∀ c ∈ chunks, ∃ body, (∀ ch ∈ body, ch ≠ '\n') ∧ c = body ++ ['\n']) →
      splitLines (chunks.foldr (fun a b => a ++ b) []) = chunks := by
  intro chunks
  induction chunks with
  | nil => intro _; rfl
  | cons c rest ih =>
    intro h
    obtain ⟨body, hbody, hc⟩ := h c (by simp)
    show splitLinesAux (c ++ rest.foldr (fun a b => a ++ b) []) [] = c :: rest
    rw [hc, List.append_assoc, List.singleton_append,
      splitLinesAux_chunk hbody []]
    rw [show splitLinesAux (rest.foldr (fun a b => a ++ b) []) [] =
      splitLines (rest.foldr (fun a b => a ++ b) []) from rfl]
    rw [ih (fun c' hc' => h c' (by simp [hc']))]
    simp

/-! ### Appending a final newline does not change the processed lines -/

theorem procOf_splitLinesAux_append_nl :
    ∀ (s acc : List Char),
      (((splitLinesAux (s ++ ['\n']) acc).filter
          (fun l => !(strip l).isEmpty)).map rstripNewline) =
        (((splitLinesAux s acc).filter
          (fun l => !(strip l).isEmpty)).map rstripNewline) := by
  intro s
  induction s with
  | nil =>
    intro acc
    show (((splitLinesAux ['\n'] acc).filter _).map _) = _
    rw [show splitLinesAux ['\n'] acc = (acc.reverse ++ ['\n']) :: splitLinesAux [] [] from
      by show (if ('\n' : Char) = '\n' then _ else _) = _; rw [if_pos rfl]]
    show ((((acc.reverse ++ ['\n']) :: ([] : List (List Char))).filter _).map _) = _
    by_cases hacc : acc.isEmpty
    · have hacc' : acc = [] := by
        cases acc with
        | nil => rfl
        | cons a l => simp at hacc
      subst hacc'
      show ((([( '\n' )] :: ([] : List (List Char))).filter _).map _) =
        ((splitLinesAux [] []).filter _).map _
      rfl
    · show _ = ((if acc.isEmpty then ([] : List (List Char)) else [acc.reverse]).filter _).map _
      rw [if_neg hacc]
      rw [List.filter_cons, List.filter_cons]
      rw [show strip (acc.reverse ++ ['\n']) = strip acc.reverse from strip_append_nl _]
      by_cases hkeep : (strip acc.reverse).isEmpty
      · rw [hkeep]
        rfl
      · rw [show (strip acc.reverse).isEmpty = false from by
          cases h' : (strip acc.reverse).isEmpty
          · rfl
          · exact absurd h' (by simpa using hkeep)]
        show ((acc.reverse ++ ['\n']) :: List.filter _ []).map _ =
          (acc.reverse :: List.filter _ []).map _
        simp [rstripNewline_append_nl]
  | cons c s ih =>
    intro acc
    show (((splitLinesAux (c :: (s ++ ['\n'])) acc).filter _).map _) = _
    by_cases hc : c = '\n'
    · rw [show splitLinesAux (c :: (s ++ ['\n'])) acc =
          (acc.reverse ++ ['\n']) :: splitLinesAux (s ++ ['\n']) [] from by
        show (if c = '\n' then _ else _) = _; rw [if_pos hc]]
      rw [show splitLinesAux (c :: s) acc =
          (acc.reverse ++ ['\n']) :: splitLinesAux s [] from by
        show (if c = '\n' then _ else _) = _; rw [if_pos hc]]
      rw [List.filter_cons, List.filter_cons]
      by_cases hkeep : (!(strip (acc.reverse ++ ['\n'])).isEmpty) = true
      · rw [if_pos hkeep, if_pos hkeep, List.map_cons, List.map_cons, ih []]
      · rw [if_neg hkeep, if_neg hkeep, ih []]
    · rw [show splitLinesAux (c :: (s ++ ['\n'])) acc =
          splitLinesAux (s ++ ['\n']) (c :: acc) from by
        show (if c = '\n' then _ else _) = _; rw [if_neg hc]]
      rw [show splitLinesAux (c :: s) acc = splitLinesAux s (c :: acc) from by
        show (if c = '\n' then _ else _) = _; rw [if_neg hc]]
      exact ih (c :: acc)

theorem processedLines_append_nl (s : List Char) :
    processedLines (s ++ ['\n']) = processedLines s :=
  procOf_splitLinesAux_append_nl s []

/-! ### Blankness is decided by the Python whitespace set -/

theorem strip_eq_nil_of_all_space {l : List Char}
    (h : ∀ c ∈ l, isPySpace c = true) : strip l = [] := by
  unfold strip
  rw [dropWhile_eq_nil_of_forall l.reverse (fun c hc => h c (List.mem_reverse.mp hc))]
  rfl

/-! ### The claims -/

/-- Claim C1: in the produced report, any two output entries A (earlier) and
B (later) satisfy: either A's count is strictly greater than B's, or the
counts are equal and A's line first occurred in the input no later than B's
line (descending count, ties broken by first-occurrence order). -/
theorem report_sort_correctness (input : List Char) :
    (report input).Pairwise (fun A B =>
      B.2 < A.2 ∨ (A.2 = B.2 ∧
        firstOccIdx (processedLines input) A.1 ≤
          firstOccIdx (processedLines input) B.1)) := by
  have htally : (tally (processedLines input)).Pairwise
      (fun a b : Entry =>
        firstOccIdx (processedLines input) a.1 <
          firstOccIdx (processedLines input) b.1) := by
    rw [tally_eq]
    exact List.pairwise_map.mpr (pairwise_firstOccs (processedLines input))
  have hstable := @sortDesc_stable
    (fun a b : Entry =>
      firstOccIdx (processedLines input) a.1 < firstOccIdx (processedLines input) b.1)
    (tally (processedLines input))
    (htally.imp fun h => Or.inr h)
  have hsorted := sortDesc_sorted (tally (processedLines input))
  refine (hsorted.and hstable).imp ?_
  rintro a b ⟨hle, hT⟩
  rcases hT with hlt | hS
  · exact Or.inl hlt
  · rcases Nat.lt_or_ge b.2 a.2 with h' | h'
    · exact Or.inl h'
    · exact Or.inr ⟨Nat.le_antisymm h' hle, Nat.le_of_lt hS⟩

/-- Claim C2: the sum of the counts across all entries of the produced
report equals the number of non-blank lines consumed from the input. -/
theorem report_sum_invariant (input : List Char) :
    ((report input).map Prod.snd).sum =
      ((splitLines input).filter (fun l => !(strip l).isEmpty)).length := by
  calc ((report input).map Prod.snd).sum
      = ((tally (processedLines input)).map Prod.snd).sum :=
        ((sortDesc_perm (tally (processedLines input))).map Prod.snd).sum_eq
    _ = (([] : List Entry).map Prod.snd).sum + (processedLines input).length :=
        sum_tally_foldl (processedLines input) []
    _ = (processedLines input).length := by simp
    _ = _ := by simp [processedLines]

/-- Claim C3: every line that is solely whitespace after terminator removal
(including the empty string) is discarded — it is neither counted in any
entry nor reported; on the input `x\n\ny\n  \nx\n` the report is exactly
`(x, 2)` then `(y, 1)`. -/
theorem blank_lines_discarded :
    (∀ input : List Char, ∀ e ∈ report input, (strip e.1).isEmpty = false) ∧
      report ("x\n\ny\n  \nx\n".data) = [("x".data, 2), ("y".data, 1)] := by
  constructor
  · intro input e he
    exact processed_not_blank (mem_report_line he).1
  · rfl

/-- Witness for C3 at the concrete scenario input. -/
theorem blank_lines_discarded_witness : (strip ("x".data)).isEmpty = false :=
  blank_lines_discarded.1 ("x\n\ny\n  \nx\n".data) ("x".data, 2) (by decide)

/-- Claim C4: each report entry is rendered on its own output line as the
count, then exactly one tab character, then the exact stripped line text,
with nothing else before the printing terminator: splitting the rendered
output into lines gives exactly one line per entry, of that shape. -/
theorem render_format (input : List Char) :
    splitLines (render input) =
      (report input).map (fun e => natToDigits e.2 ++ '\t' :: (e.1 ++ ['\n'])) := by
  have h := splitLines_concat ((report input).map renderEntry) ?_
  · exact h
  · intro c hc
    obtain ⟨e, he, hce⟩ := List.mem_map.mp hc
    refine ⟨natToDigits e.2 ++ '\t' :: e.1, ?_, ?_⟩
    · intro ch hch
      rcases List.mem_append.mp hch with h' | h'
      · exact fun hn => natToDigits_no_nl e.2 (hn ▸ h')
      · rcases List.mem_cons.mp h' with h'' | h''
        · rw [h'']; decide
        · exact fun hn => processed_no_nl (mem_report_line he).1 (hn ▸ h'')
    · rw [← hce]
      show renderEntry e = _
      unfold renderEntry
      simp

/-- Claim C5: from every input line exactly one trailing terminator is
stripped if present and nothing else is changed (the stripped text plus one
`'\n'` reassembles the raw line, or the line had no terminator and is kept
verbatim); every reported text is exactly such a stripped raw line. -/
theorem line_terminator_stripping :
    (∀ s : List Char, ∀ l ∈ splitLines s,
        l = rstripNewline l ++ ['\n'] ∨ (rstripNewline l = l ∧ '\n' ∉ l)) ∧
      ∀ input : List Char, ∀ e ∈ report input,
        ∃ raw ∈ splitLines input, e.1 = rstripNewline raw := by
  constructor
  · intro s l hl
    obtain ⟨body, hbody, hshape⟩ := splitLines_shape hl
    rcases hshape with h' | h'
    · left
      rw [h', rstripNewline_append_nl, rstripNewline_eq_self hbody]
    · right
      rw [h', rstripNewline_eq_self hbody]
      exact ⟨rfl, hbody⟩
  · intro input e he
    obtain ⟨raw, hraw, hx, _⟩ := mem_processedLines (mem_report_line he).1
    exact ⟨raw, hraw, hx⟩

/-- Witness for C5 at a concrete line with a terminator. -/
theorem line_terminator_stripping_witness :
    "a\n".data = rstripNewline ("a\n".data) ++ ['\n'] ∨
      (rstripNewline ("a\n".data) = "a\n".data ∧ '\n' ∉ "a\n".data) :=
  line_terminator_stripping.1 ("a\n".data) ("a\n".data) (by decide)

/-- Claim C6: no two entries of the produced report have identical line
text, and each distinct non-blank line of the input appears in the report
(hence exactly once, however often it recurs in the input). -/
theorem report_distinct_lines (input : List Char) :
    ((report input).map Prod.fst).Nodup ∧
      ∀ l ∈ processedLines input, l ∈ (report input).map Prod.fst := by
  have hkeys : keys (tally (processedLines input)) = firstOccs (processedLines input) := by
    rw [tally_eq]
    unfold keys
    rw [List.map_map]
    exact map_eq_self_of _ fun x _ => rfl
  have hperm := (sortDesc_perm (tally (processedLines input))).map Prod.fst
  constructor
  · refine hperm.nodup_iff.mpr ?_
    rw [show (tally (processedLines input)).map Prod.fst =
      keys (tally (processedLines input)) from rfl, hkeys]
    exact nodup_firstOccs (processedLines input)
  · intro l hl
    refine hperm.mem_iff.mpr ?_
    rw [show (tally (processedLines input)).map Prod.fst =
      keys (tally (processedLines input)) from rfl, hkeys]
    exact mem_firstOccsNotIn_of_mem hl (by simp)

/-- Witness for C6: on `a b a` the line `a` is reported. -/
theorem report_distinct_lines_witness :
    "a".data ∈ (report ("a\nb\na\n".data)).map Prod.fst :=
  (report_distinct_lines ("a\nb\na\n".data)).2 ("a".data) (by decide)

/-- Claim C7: the program exits with status 0 exactly on normal completion
(including empty input, which produces an empty report), exits non-zero
when the input stream cannot be read, and emits no partial output in that
case. -/
theorem exit_status :
    (∀ s : List Char, run (some s) = (some (render s), 0)) ∧
      report ([] : List Char) = [] ∧ render ([] : List Char) = [] ∧
      (run none).1 = none ∧ 0 < (run none).2 :=
  ⟨fun _ => rfl, rfl, rfl, rfl, by decide⟩

/-- Claim C8: for a fixed input, two runs produce identical output — the
report is a deterministic function of the input stream alone. -/
theorem deterministic_output (input : List Char) (out1 out2 : Option (List Char) × Nat)
    (h1 : out1 = run (some input)) (h2 : out2 = run (some input)) : out1 = out2 :=
  h1.trans h2.symm

/-- Witness for C8 at a concrete input. -/
theorem deterministic_output_witness :
    run (some ("a\n".data)) = run (some ("a\n".data)) :=
  deterministic_output ("a\n".data) (run (some ("a\n".data))) (run (some ("a\n".data)))
    rfl rfl

/-- Claim C9: a final input line lacking the trailing newline is tallied
exactly as the same text followed by a newline; in particular `a\na`
reports the single entry `(a, 2)` and renders identically to `a\na\n`. -/
theorem trailing_newline_irrelevant :
    (∀ s : List Char, processedLines (s ++ ['\n']) = processedLines s) ∧
      report ("a\na".data) = [("a".data, 2)] ∧
      render ("a\na".data) = render ("a\na\n".data) :=
  ⟨processedLines_append_nl, rfl, rfl⟩

/-- Claim C10: blankness uses Python's full Unicode whitespace set, not
only ASCII space and tab: any line of whitespace characters strips to
empty, vertical tab, form feed, carriage return and no-break space all
count as whitespace, and lines made of them are discarded from the report. -/
theorem unicode_whitespace_blank :
    (∀ l : List Char, (∀ c ∈ l, isPySpace c = true) → strip l = []) ∧
      report ("a\n\x0b\n\x0c\n\r\n\xa0\na\n".data) = [("a".data, 2)] ∧
      isPySpace '\x0b' = true ∧ isPySpace '\x0c' = true ∧
      isPySpace '\x0d' = true ∧ isPySpace '\xa0' = true :=
  ⟨fun _ h => strip_eq_nil_of_all_space h, rfl, rfl, rfl, rfl, rfl⟩

/-- Witness for C10 on a line of no-break space and vertical tab. -/
theorem unicode_whitespace_blank_witness : strip ("\xa0\x0b".data) = [] :=
  unicode_whitespace_blank.1 ("\xa0\x0b".data) (by decide)

end ErrorAnalyzer
